import Mathlib

/-!
# Verification of the `lattices` repository (verifiable BFV over `Z_Q[X]/(X^N+1)`)

Shallow embedding of the NTT engine, the modular-arithmetic chip, the
assigned-value layer and the rounding utility of the repository, together
with theorems settling the specification claims.

Conventions:
* `params_8.rs` fixes the ring dimension `N = 8` (`LOGN = 3`); the tests fix
  the ciphertext modulus `Q = 3329`.  The native field is the Goldilocks
  field of order `PGOLD = 2^64 - 2^32 + 1`.
* Field elements are represented by their canonical `u64` representatives,
  i.e. naturals `< PGOLD`; field operations are explicit `% PGOLD`.
* A mutable `Vec<F>` is embedded as a `List ℕ` (`getD`/`set`), or — for the
  in-circuit NTT whose butterfly network only ever touches indices `< N` —
  as a total map `ℕ → ℕ` updated with `Function.update`.
* Wire allocation (`CircuitBuilder::add_virtual_target`) is embedded as a
  counter: a fresh `Target` is the current counter value, and allocation
  returns the incremented counter.
-/

namespace Lattices

/-- `Q = 3329`, the ciphertext modulus used throughout the repository's tests. -/
def QV : ℕ := 3329

/-- `params::N = 8` (`ntt_params/params_8.rs`). -/
def NV : ℕ := 8

/-- `params::LOGN = 3` (`ntt_params/params_8.rs`). -/
def LOGN : ℕ := 3

/-- `params::NINV = 2913` (`ntt_params/params_8.rs`). -/
def NINV : ℕ := 2913

/-- Order of the Goldilocks field underlying `PoseidonGoldilocksConfig`. -/
def PGOLD : ℕ := 2 ^ 64 - 2 ^ 32 + 1

/-- `params::ROOTS` (`ntt_params/params_8.rs`). -/
def ROOTS : List ℕ := [1, 1729, 749, 40, 2699, 2642, 848, 1432]

/-- `params::INVROOTS` (`ntt_params/params_8.rs`). -/
def INVROOTS : List ℕ := [1, 1600, 3289, 2580, 1897, 2481, 687, 630]

/-- `params::TESTG` (`ntt_params/params_8.rs`). -/
def TESTG : List ℕ := [35, 1850, 948, 1099, 3090, 2420, 1584, 2455]

/-- `params::TESTGHAT` (`ntt_params/params_8.rs`). -/
def TESTGHAT : List ℕ := [2262, 2435, 1226, 2464, 1780, 1017, 694, 1718]

/-! ## Plain (off-circuit) forward NTT, `vbfv/mod.rs`

`ntt_fw_update` computes in the Goldilocks field `F`: `a[j+t] * s` and
`u + v` are field operations (wrapping at `PGOLD`), each followed by
`.to_canonical_u64() % Q`; crucially `u - v` is *field* subtraction, i.e.
`(u + PGOLD - v) % PGOLD`, before the `% Q` reduction. -/

/-- `ntt_fw_update` of `vbfv/mod.rs` (one radix-2 pass of the plain forward
NTT, with Goldilocks-field arithmetic made explicit). -/
def ntt_fw_update (input : List ℕ) (m : ℕ) : List ℕ :=
  let a := input
  let t := NV / (2 * m)
  (List.range m).foldl (fun a i =>
    let j1 := 2 * i * t
    let root := ROOTS.getD (m + i) 0
    (List.range t).foldl (fun a dj =>
      let j := j1 + dj
      let u := a.getD j 0
      let v := a.getD (j + t) 0 * root % PGOLD % QV
      let a1 := a.set j ((u + v) % PGOLD % QV)
      a1.set (j + t) ((u + (PGOLD - v)) % PGOLD % QV)) a) a

/-- `ntt_forward` of `vbfv/mod.rs`: the `LOGN` passes `m = 1, 2, …, N/2`. -/
def ntt_forward (input : List ℕ) : List ℕ :=
  (List.range LOGN).foldl (fun current i => ntt_fw_update current (2 ^ i)) input

/-! ## Witness-generator semantics of the modular-arithmetic gates

`NTTChip` (`vbfv/ntt_chip/mod.rs`) routes every butterfly operation through
an `ArithmeticChip` offering `add`, `sub` and `mul_with_constant`.  That
chip is not part of the sources (the `arithmetic_chip.rs` in the tree only
offers whole-ciphertext addition), so its per-gate semantics is modelled
from the spec, §4.1. -/

namespace ArithmeticChip

/-- Modelled from the spec: witness-generator semantics of the missing
`ArithmeticChip::add` gate — "a generator computes `quotient = floor((x+y)/Q)`
and `result = (x+y) mod Q`". -/
def add (x y : ℕ) : ℕ := (x + y) % QV

/-- Modelled from the spec: witness-generator semantics of the missing
`ArithmeticChip::sub` gate — "computes `x + Q - y` before applying the same
quotient/remainder pattern". -/
def sub (x y : ℕ) : ℕ := (x + QV - y) % QV

/-- Modelled from the spec: witness-generator semantics of the missing
`ArithmeticChip::mul_with_constant` gate — the product in place of the sum. -/
def mul_with_constant (x c : ℕ) : ℕ := x * c % QV

end ArithmeticChip

/-! ## In-circuit NTT, `vbfv/ntt_chip/mod.rs`, witness-generator semantics

The state vector is embedded as a map `ℕ → ℕ`; every index the butterfly
network reads or writes is `< N`.  The loop body of each pass is factored
out as a named butterfly step. -/

namespace NTTChip

/-- Body of the inner loop of `NTTChip::ntt_fw_update`:
`u = a[j]`, `v = mul_with_constant(a[j+t], root)`, `a[j] = add(u, v)`,
`a[j+t] = sub(u, v)`. -/
def fw_butterfly (root t j : ℕ) (a : ℕ → ℕ) : ℕ → ℕ :=
  let u := a j
  let v := ArithmeticChip.mul_with_constant (a (j + t)) root
  Function.update (Function.update a j (ArithmeticChip.add u v)) (j + t)
    (ArithmeticChip.sub u v)

/-- `NTTChip::ntt_fw_update`: for `i < m`, `j1 = 2*i*t`, the butterflies at
`j = j1, …, j1 + t - 1` with root `ROOTS[m+i]`. -/
def ntt_fw_update (input : ℕ → ℕ) (m : ℕ) : ℕ → ℕ :=
  let a := input
  let t := NV / (2 * m)
  (List.range m).foldl (fun a i =>
    (List.range t).foldl (fun a dj =>
      fw_butterfly (ROOTS.getD (m + i) 0) t (2 * i * t + dj) a) a) a

/-- `NTTChip::ntt_forward`: passes `m = 2^0, …, 2^(LOGN-1)`. -/
def ntt_forward (input : ℕ → ℕ) : ℕ → ℕ :=
  (List.range LOGN).foldl (fun current i => ntt_fw_update current (2 ^ i)) input

/-- Body of the inner loop of `NTTChip::ntt_bw_update`:
`u = a[j]`, `v = a[j+t]`, `a[j] = add(u, v)`, `w = sub(u, v)`,
`a[j+t] = mul_with_constant(w, root)`. -/
def bw_butterfly (root t j : ℕ) (a : ℕ → ℕ) : ℕ → ℕ :=
  let u := a j
  let v := a (j + t)
  let w := ArithmeticChip.sub u v
  Function.update (Function.update a j (ArithmeticChip.add u v)) (j + t)
    (ArithmeticChip.mul_with_constant w root)

/-- `NTTChip::ntt_bw_update`: `j1` starts at `0` and advances by `2*t` per
group, i.e. `j1 = 2*i*t` for the `i`-th group, with root `INVROOTS[m+i]`. -/
def ntt_bw_update (input : ℕ → ℕ) (m : ℕ) : ℕ → ℕ :=
  let a := input
  let t := NV / (2 * m)
  (List.range m).foldl (fun a i =>
    (List.range t).foldl (fun a dj =>
      bw_butterfly (INVROOTS.getD (m + i) 0) t (2 * i * t + dj) a) a) a

/-- `NTTChip::ntt_backward`: passes `m = 2^(LOGN-1), …, 2^0`, then every
element is multiplied by `NINV`. -/
def ntt_backward (input : ℕ → ℕ) : ℕ → ℕ :=
  let current := ((List.range LOGN).reverse).foldl
    (fun current i => ntt_bw_update current (2 ^ i)) input
  fun k => ArithmeticChip.mul_with_constant (current k) NINV

end NTTChip

/-! ## `ZMod Q` mirror of the in-circuit NTT

Used to prove the round-trip claim: the `ℕ`-level chip semantics agrees
(for states with entries `< Q`) with ring arithmetic in `ZMod Q`, where the
transform is linear. -/

/-- The ring `Z_Q` for `Q = 3329`. -/
abbrev Zq := ZMod QV

/-- `ZMod` mirror of `NTTChip.fw_butterfly`. -/
def fw_butterflyZ (root : Zq) (t j : ℕ) (a : ℕ → Zq) : ℕ → Zq :=
  let u := a j
  let v := a (j + t) * root
  Function.update (Function.update a j (u + v)) (j + t) (u - v)

/-- `ZMod` mirror of `NTTChip.ntt_fw_update`. -/
def ntt_fw_updateZ (input : ℕ → Zq) (m : ℕ) : ℕ → Zq :=
  let a := input
  let t := NV / (2 * m)
  (List.range m).foldl (fun a i =>
    (List.range t).foldl (fun a dj =>
      fw_butterflyZ ((ROOTS.getD (m + i) 0 : ℕ) : Zq) t (2 * i * t + dj) a) a) a

/-- `ZMod` mirror of `NTTChip.ntt_forward`. -/
def ntt_forwardZ (input : ℕ → Zq) : ℕ → Zq :=
  (List.range LOGN).foldl (fun current i => ntt_fw_updateZ current (2 ^ i)) input

/-- `ZMod` mirror of `NTTChip.bw_butterfly`. -/
def bw_butterflyZ (root : Zq) (t j : ℕ) (a : ℕ → Zq) : ℕ → Zq :=
  let u := a j
  let v := a (j + t)
  Function.update (Function.update a j (u + v)) (j + t) ((u - v) * root)

/-- `ZMod` mirror of `NTTChip.ntt_bw_update`. -/
def ntt_bw_updateZ (input : ℕ → Zq) (m : ℕ) : ℕ → Zq :=
  let a := input
  let t := NV / (2 * m)
  (List.range m).foldl (fun a i =>
    (List.range t).foldl (fun a dj =>
      bw_butterflyZ ((INVROOTS.getD (m + i) 0 : ℕ) : Zq) t (2 * i * t + dj) a) a) a

/-- `ZMod` mirror of `NTTChip.ntt_backward`. -/
def ntt_backwardZ (input : ℕ → Zq) : ℕ → Zq :=
  let current := ((List.range LOGN).reverse).foldl
    (fun current i => ntt_bw_updateZ current (2 ^ i)) input
  fun k => current k * ((NINV : ℕ) : Zq)

/-- Backward after forward, `ZMod` mirror. -/
def ntt_roundtripZ (b : ℕ → Zq) : ℕ → Zq := ntt_backwardZ (ntt_forwardZ b)

/-- `i`-th standard basis vector of `ℕ → Zq` (supported on `i < N`). -/
def basisZ (i : ℕ) : ℕ → Zq := fun k => if k = i then 1 else 0

/-- The chip-level and `ZMod`-mirror states agree on the first `NV` entries,
with the `ℕ`-level entries reduced below `Q`. -/
def Agree8 (a : ℕ → ℕ) (b : ℕ → Zq) : Prop :=
  ∀ k < NV, a k < QV ∧ ((a k : ℕ) : Zq) = b k

/-! ## Assigned values and wire allocation, `vbfv/assigned.rs`

`CircuitBuilder::add_virtual_target` hands out fresh wires in sequence; it
is embedded as a counter `n : ℕ` where allocation returns the wire id `n`
and the next counter `n + 1`. -/

/-- `plonky2::util::log2_ceil` (external collaborator): `⌈log2 n⌉`. -/
def log2_ceil (n : ℕ) : ℕ := Nat.clog 2 n

/-- `plonky2::util::log_floor` (external collaborator): `⌊log_base n⌋`. -/
def log_floor (n base : ℕ) : ℕ := Nat.log base n

namespace AssignedValue

/-- `AssignedValue::new`: allocate a fresh wire (and range-check it). -/
def new (n : ℕ) : ℕ × ℕ := (n, n + 1)

/-- The set of integer representatives admitted by the range check that
`AssignedValue::new` / `new_from_target` attach to the wire:
`cb.range_check(value, log2_ceil(Q))`, i.e. `value < 2 ^ ⌈log2 Q⌉`. -/
def range_admits (q x : ℕ) : Prop := x < 2 ^ log2_ceil q

instance (q x : ℕ) : Decidable (range_admits q x) := by
  unfold range_admits
  infer_instance

end AssignedValue

/-! ## Ciphertext addition chips, `vbfv/arithmetic_chip.rs` and
`vbfv/ciphertext_chip.rs` -/

namespace ArithmeticChip

/-- Quotient-wire allocation of `ArithmeticChip::add_ciphertexts`:
`vec![AssignedValue::new(cb); 2 * N]` evaluates `AssignedValue::new` once
and clones the resulting value `2N` times. -/
def add_ciphertexts_quotients (n : ℕ) : List ℕ × ℕ :=
  let p := AssignedValue.new n
  (List.replicate (2 * NV) p.1, p.2)

end ArithmeticChip

namespace CiphertextChip

/-- Quotient-wire allocation of `CiphertextChip::add_ciphertexts`:
`(0..2 * N).map(|_| AssignedValue::new(cb))` calls `AssignedValue::new`
once per element. -/
def add_ciphertexts_quotients (n : ℕ) : List ℕ × ℕ :=
  (List.range (2 * NV)).foldl
    (fun st _ => let p := AssignedValue.new st.2; (st.1 ++ [p.1], p.2)) ([], n)

end CiphertextChip

namespace ArithmeticOpsGenerator

/-- `ArithmeticOpsGenerator::dependencies`: `ct0`'s wire list followed by
`ct1`'s. -/
def dependencies (ct0_targets ct1_targets : List ℕ) : List ℕ :=
  ct0_targets ++ ct1_targets

/-- `ArithmeticOpsGenerator::run_once`, value level: split the dependency
list at its midpoint, and for each operand pair compute
`quotient = tmp.div_euclid(Q)` and `remainder = tmp.rem_euclid(Q)` with
`tmp = x + y`, given the witness assignment `w` of wire values. -/
def run_once_pairs (ct0_targets ct1_targets : List ℕ) (w : ℕ → ℕ) :
    List (ℕ × ℕ) :=
  let deps := dependencies ct0_targets ct1_targets
  let split := deps.splitAt (deps.length / 2)
  (split.1.zip split.2).map (fun p => ((w p.1 + w p.2) / QV, (w p.1 + w p.2) % QV))

/-- The writes `run_once` performs on the quotient wires: the `i`-th
quotient wire receives `(x_i + y_i).div_euclid(Q)`. -/
def quotient_writes (quotient : List ℕ) (xs ys : List ℕ) : List (ℕ × ℕ) :=
  quotient.zip ((xs.zip ys).map (fun p => (p.1 + p.2) / QV))

end ArithmeticOpsGenerator

/-! ## Native-field gate of `ArithmeticChip::add_ciphertexts`

`cb.arithmetic(ring_modulus, one, neg_one, quotient[i].value, eval_added)`
evaluates `const_0 * multiplicand_0 * multiplicand_1 + const_1 * addend` in
the Goldilocks field, i.e. `Q * (PGOLD - 1) * quotient + eval_added`, with
`eval_added = cb.add(ct0[i], ct1[i])`. -/

/-- Goldilocks-field addition on canonical representatives. -/
def fieldAdd (a b : ℕ) : ℕ := (a + b) % PGOLD

/-- Goldilocks-field multiplication on canonical representatives. -/
def fieldMul (a b : ℕ) : ℕ := a * b % PGOLD

/-- Canonical representative of `cb.neg_one()`. -/
def NEG_ONE : ℕ := PGOLD - 1

/-- Value of the constraint output
`cb.arithmetic(ring_modulus, one, neg_one, quotient, eval_added)`:
`Q * (-1) * quotient + 1 * eval_added` in the native field. -/
def add_gate_output (quotient eval_added : ℕ) : ℕ :=
  fieldAdd (fieldMul (fieldMul QV NEG_ONE) quotient) eval_added

/-! ## `rounded_div`, `cyclotomic-ring/src/utils.rs`

Signed integers are embedded as `ℤ`; Rust's `/` on signed integers is
truncated division, `Int.tdiv`.  The guard `dividend ^ divisor >= T::zero()`
(bitwise XOR of two's-complement values) holds exactly when the two sign
bits are equal, i.e. when `dividend < 0 ↔ divisor < 0`. -/

/-- `rounded_div` of `cyclotomic-ring/src/utils.rs`. -/
def rounded_div (dividend divisor : ℤ) : ℤ :=
  if (dividend < 0 ↔ divisor < 0) then (dividend + divisor.tdiv 2).tdiv divisor
  else (dividend - divisor.tdiv 2).tdiv divisor

/-! ## Relinearization key, `vbfv/assigned.rs` -/

/-- `itertools::zip_eq`: zips two lists, erroring (modelled as `none`) when
their lengths differ. -/
def zip_eq {α β : Type} (l1 : List α) (l2 : List β) : Option (List (α × β)) :=
  if l1.length = l2.length then some (l1.zip l2) else none

namespace AssignedRelinearizationKey

/-- Number of digit slots allocated by `AssignedRelinearizationKey::new`:
`num_limbs = log_floor(Q, base)`. -/
def num_limbs (q base : ℕ) : ℕ := log_floor q base

end AssignedRelinearizationKey

namespace RelinearizationKey1

/-- Modelled from the spec: the number of digit pairs in the `val` list of a
`RelinearizationKey1` produced by `relin_key_gen_1` — "decomposes `s^2` into
`⌈log_base(Q)⌉` digits, encrypts each `base^i * s^2` under a fresh
key-switching pair".  The bfv key-generation module itself is not under
`src/`. -/
def num_digits (q base : ℕ) : ℕ := Nat.clog base q

end RelinearizationKey1

/-- `AssignedRelinearizationKey::assign`: `self.value.iter().zip_eq(rlk.val.iter())`
— the pairing succeeds only when the slot count equals the key's digit
count (slot and digit contents are irrelevant to the pairing itself). -/
def AssignedRelinearizationKey.assign_pairs (q base : ℕ) :
    Option (List (Unit × Unit)) :=
  zip_eq (List.replicate (AssignedRelinearizationKey.num_limbs q base) ())
    (List.replicate (RelinearizationKey1.num_digits q base) ())

/-! ## Polynomial witness assignment, `vbfv/assigned.rs`

An assignment is the list of `(wire, value)` writes into the witness table;
the `N` wires of a poly are numbered `0, …, N-1` here. -/

namespace AssignedPoly

/-- `AssignedPoly::assign`: `assert_eq!(coeffs.len(), N)` (modelled as
`none` on failure), then writes coefficient `i` to wire `i`. -/
def assign (coeffs : List ℕ) : Option (List (ℕ × ℕ)) :=
  if coeffs.length = NV then some ((List.range NV).zip coeffs) else none

end AssignedPoly

namespace AssignedNTTPoly

/-- `AssignedNTTPoly::assign`: computes `ntt_forward` of the coefficient
list and zips the `N` wires with the evaluations — there is no length
check, and `zip` stops at the shorter side.  (For inputs *shorter* than `N`
the Rust code instead panics on an out-of-bounds index inside
`ntt_forward`; that path is outside this model, which is faithful for
inputs of length `≥ N`.) -/
def assign (poly_coeffs : List ℕ) : List (ℕ × ℕ) :=
  (List.range NV).zip (ntt_forward poly_coeffs)

end AssignedNTTPoly

/-! ## Theorems -/

theorem qv_pos : 0 < QV := by norm_num [QV]

theorem add_lt_qv {x y : ℕ} : ArithmeticChip.add x y < QV :=
  Nat.mod_lt _ qv_pos

theorem sub_lt_qv {x y : ℕ} : ArithmeticChip.sub x y < QV :=
  Nat.mod_lt _ qv_pos

theorem mulc_lt_qv {x c : ℕ} : ArithmeticChip.mul_with_constant x c < QV :=
  Nat.mod_lt _ qv_pos

theorem cast_mod_qv (z : ℕ) : ((z % QV : ℕ) : Zq) = (z : Zq) := by
  conv_rhs => rw [← Nat.div_add_mod z QV]
  push_cast
  simp [ZMod.natCast_self]

theorem cast_add (x y : ℕ) : ((ArithmeticChip.add x y : ℕ) : Zq) = (x : Zq) + y := by
  unfold ArithmeticChip.add
  rw [cast_mod_qv]
  push_cast
  ring

theorem cast_sub (x y : ℕ) (hy : y < QV) :
    ((ArithmeticChip.sub x y : ℕ) : Zq) = (x : Zq) - y := by
  unfold ArithmeticChip.sub
  rw [cast_mod_qv, Nat.cast_sub (by omega)]
  push_cast
  simp [ZMod.natCast_self]

theorem cast_mulc (x c : ℕ) :
    ((ArithmeticChip.mul_with_constant x c : ℕ) : Zq) = (x : Zq) * c := by
  unfold ArithmeticChip.mul_with_constant
  rw [cast_mod_qv]
  push_cast
  ring

/-! ### Generic fold lemmas -/

theorem foldl_rel {α β ι : Type} (R : α → β → Prop) (f : α → ι → α)
    (g : β → ι → β) :
    ∀ l : List ι, (∀ i ∈ l, ∀ a b, R a b → R (f a i) (g b i)) →
      ∀ a b, R a b → R (l.foldl f a) (l.foldl g b) := by
  intro l
  induction l with
  | nil => intro _ a b hab; simpa using hab
  | cons x xs ih =>
    intro h a b hab
    simp only [List.foldl_cons]
    exact ih (fun i hi a b hab => h i (List.mem_cons_of_mem _ hi) a b hab) _ _
      (h x (List.mem_cons_self x xs) a b hab)

theorem foldl_preserve {α ι : Type} (P : α → Prop) (f : α → ι → α) :
    ∀ l : List ι, (∀ i ∈ l, ∀ a, P a → P (f a i)) →
      ∀ a, P a → P (l.foldl f a) := by
  intro l
  induction l with
  | nil => intro _ a ha; simpa using ha
  | cons x xs ih =>
    intro h a ha
    simp only [List.foldl_cons]
    exact ih (fun i hi a ha => h i (List.mem_cons_of_mem _ hi) a ha) _
      (h x (List.mem_cons_self x xs) a ha)

theorem foldl_add_hom {α ι : Type} [Add α] (f : α → ι → α) :
    ∀ l : List ι, (∀ i ∈ l, ∀ a b, f (a + b) i = f a i + f b i) →
      ∀ a b, l.foldl f (a + b) = l.foldl f a + l.foldl f b := by
  intro l
  induction l with
  | nil => intro _ a b; simp
  | cons x xs ih =>
    intro h a b
    simp only [List.foldl_cons]
    rw [h x (List.mem_cons_self x xs)]
    exact ih (fun i hi a b => h i (List.mem_cons_of_mem _ hi) a b) _ _

theorem foldl_smul_hom {α ι : Type} [SMul Zq α] (f : α → ι → α) :
    ∀ l : List ι, (∀ i ∈ l, ∀ (c : Zq) a, f (c • a) i = c • f a i) →
      ∀ (c : Zq) a, l.foldl f (c • a) = c • l.foldl f a := by
  intro l
  induction l with
  | nil => intro _ c a; simp
  | cons x xs ih =>
    intro h c a
    simp only [List.foldl_cons]
    rw [h x (List.mem_cons_self x xs)]
    exact ih (fun i hi c a => h i (List.mem_cons_of_mem _ hi) c a) _ _

/-! ### Logarithm values for `Q = 3329` -/

theorem clog2_3329 : Nat.clog 2 3329 = 12 := by
  have h1 : Nat.clog 2 3329 ≤ 12 :=
    (Nat.le_pow_iff_clog_le (by norm_num)).mp (by norm_num)
  have h2 : 11 < Nat.clog 2 3329 :=
    (Nat.pow_lt_iff_lt_clog (by norm_num)).mp (by norm_num)
  omega

theorem log2_3329 : Nat.log 2 3329 = 11 := by
  have h1 : 11 ≤ Nat.log 2 3329 :=
    (Nat.pow_le_iff_le_log (by norm_num) (by norm_num)).mp (by norm_num)
  have h2 : Nat.log 2 3329 < 12 :=
    (Nat.lt_pow_iff_log_lt (by norm_num) (by norm_num)).mp (by norm_num)
  omega

/-! ### Claim C10 — consistency of the `params_8.rs` table -/

/-- C10: for every index `i < 8`, `ROOTS[i] * INVROOTS[i] ≡ 1 (mod 3329)`,
and `N * NINV ≡ 1 (mod 3329)`, i.e. `NINV = 2913` is the inverse of `8`. -/
theorem params_8_table_consistent :
    (∀ i < NV, ROOTS.getD i 0 * INVROOTS.getD i 0 % QV = 1)
    ∧ NV * NINV % QV = 1 := by
  decide

/-- Witness for C10 at `i = 1`: `1729 * 1600 ≡ 1 (mod 3329)`. -/
theorem params_8_table_consistent_witness :
    1 < NV ∧ ROOTS.getD 1 0 * INVROOTS.getD 1 0 % QV = 1 :=
  ⟨by decide, params_8_table_consistent.1 1 (by decide)⟩

/-! ### Claim C7 — the plain forward NTT versus the published test vector -/

/-- C7: the plain `ntt_forward` does *not* map `TESTG` to `TESTGHAT`
(because its `u - v` butterfly step is Goldilocks-field subtraction, and
`PGOLD ≢ 0 (mod Q)`), while the in-circuit butterfly network, interpreted
by its witness-generator semantics, does. -/
theorem ntt_forward_test_vector_mismatch :
    ntt_forward TESTG ≠ TESTGHAT
    ∧ (∀ k < NV, NTTChip.ntt_forward (fun k => TESTG.getD k 0) k = TESTGHAT.getD k 0) :=
  ⟨by decide, by decide⟩

/-! ### Claim C1 — plain versus in-circuit forward NTT -/

/-- C1: the plain and in-circuit forward NTTs disagree on the unit vector
`e_4`: index `4` of the output is `3236` off-circuit but `1600` in-circuit,
since the plain `u - v` wraps at `PGOLD` with `PGOLD % Q = 1636 ≠ 0`. -/
theorem ntt_plain_circuit_disagree :
    (∀ k < NV, ([0, 0, 0, 0, 1, 0, 0, 0] : List ℕ).getD k 0 < QV)
    ∧ (ntt_forward [0, 0, 0, 0, 1, 0, 0, 0]).getD 4 0 = 3236
    ∧ NTTChip.ntt_forward (fun k => if k = 4 then 1 else 0) 4 = 1600
    ∧ ¬ (∀ k < NV, (ntt_forward [0, 0, 0, 0, 1, 0, 0, 0]).getD k 0
          = NTTChip.ntt_forward (fun k => if k = 4 then 1 else 0) k) := by
  refine ⟨by decide, by decide, by decide, ?_⟩
  intro h
  have h4 := h 4 (by decide)
  revert h4
  decide

/-! ### Claim C2 — range check attached to `AssignedValue` -/

/-- C2 counterexample: the range check of `AssignedValue::new` /
`new_from_target` admits the representative `Q = 3329` itself, since it
only enforces `x < 2 ^ ⌈log2 Q⌉ = 4096`. -/
theorem assigned_value_range_check_not_tight :
    ¬ (∀ x, AssignedValue.range_admits QV x → x < QV) := by
  intro h
  have hadm : AssignedValue.range_admits QV QV := by
    show QV < 2 ^ log2_ceil QV
    have h12 : log2_ceil QV = 12 := by
      show Nat.clog 2 QV = 12
      simp [QV, clog2_3329]
    rw [h12]
    norm_num [QV]
  exact absurd (h QV hadm) (lt_irrefl QV)

/-- C2 amended: the range check constrains the wire to
`[0, 2^⌈log2 Q⌉) = [0, 4096)`; every representative below `Q` is admitted,
but so is every representative in `[Q, 4096)`. -/
theorem assigned_value_range_check_bits :
    (∀ x, AssignedValue.range_admits QV x ↔ x < 4096)
    ∧ (∀ x, x < QV → AssignedValue.range_admits QV x) := by
  have h12 : log2_ceil QV = 12 := by
    show Nat.clog 2 QV = 12
    simp [QV, clog2_3329]
  constructor
  · intro x
    unfold AssignedValue.range_admits
    rw [h12]
    norm_num
  · intro x hx
    unfold AssignedValue.range_admits
    rw [h12]
    have : QV ≤ 2 ^ 12 := by norm_num [QV]
    omega

/-- Witness for C2 amended at `x = 100`. -/
theorem assigned_value_range_check_bits_witness :
    100 < QV ∧ AssignedValue.range_admits QV 100 :=
  ⟨by norm_num [QV], assigned_value_range_check_bits.2 100 (by norm_num [QV])⟩

/-! ### Claim C3 — quotient-wire allocation in ciphertext addition -/

/-- C3: `ArithmeticChip::add_ciphertexts` builds its quotient list with
`vec![AssignedValue::new(cb); 2 * N]`, which allocates one wire and clones
it; all 16 entries are the same wire (so the list is not pairwise
distinct, and `run_once` writes the two different quotients `0` and `1` to
that single wire on an input whose coordinate sums straddle `Q`).
`CiphertextChip::add_ciphertexts` does allocate `2N` pairwise distinct
wires. -/
theorem arithmetic_chip_shared_quotient_wire :
    ¬ ((ArithmeticChip.add_ciphertexts_quotients 0).1.Pairwise (· ≠ ·))
    ∧ (ArithmeticChip.add_ciphertexts_quotients 0).1.getD 0 0
        = (ArithmeticChip.add_ciphertexts_quotients 0).1.getD 1 0
    ∧ (CiphertextChip.add_ciphertexts_quotients 0).1.Pairwise (· ≠ ·)
    ∧ (ArithmeticOpsGenerator.quotient_writes
        (ArithmeticChip.add_ciphertexts_quotients 0).1
        [0, 3000, 0, 0, 0, 0, 0, 0, 0, 0, 0, 0, 0, 0, 0, 0]
        [0, 3000, 0, 0, 0, 0, 0, 0, 0, 0, 0, 0, 0, 0, 0, 0]).getD 0 (0, 0) = (0, 0)
    ∧ (ArithmeticOpsGenerator.quotient_writes
        (ArithmeticChip.add_ciphertexts_quotients 0).1
        [0, 3000, 0, 0, 0, 0, 0, 0, 0, 0, 0, 0, 0, 0, 0, 0]
        [0, 3000, 0, 0, 0, 0, 0, 0, 0, 0, 0, 0, 0, 0, 0, 0]).getD 1 (0, 0) = (0, 1) := by
  refine ⟨?_, by decide, by decide, by decide, by decide⟩
  intro h
  revert h
  decide

/-! ### Claim C8 — relinearization-key digit slots -/

/-- C8: `AssignedRelinearizationKey::new` allocates `log_floor(Q, base)`
slots — for `Q = 3329, base = 2` that is `⌊log2 Q⌋ = 11`, not the
`⌈log2 Q⌉ = 12` digits of the spec's `relin_key_gen_1` decomposition — so
`assign`'s `zip_eq` pairing fails. -/
theorem relinearization_key_slot_count_mismatch :
    AssignedRelinearizationKey.num_limbs QV 2 = 11
    ∧ RelinearizationKey1.num_digits QV 2 = 12
    ∧ AssignedRelinearizationKey.assign_pairs QV 2 = none := by
  have h1 : AssignedRelinearizationKey.num_limbs QV 2 = 11 := by
    show Nat.log 2 QV = 11
    simp [QV, log2_3329]
  have h2 : RelinearizationKey1.num_digits QV 2 = 12 := by
    show Nat.clog 2 QV = 12
    simp [QV, clog2_3329]
  refine ⟨h1, h2, ?_⟩
  unfold AssignedRelinearizationKey.assign_pairs zip_eq
  rw [h1, h2]
  simp

/-! ### Claim C9 — length handling in polynomial witness assignment -/

/-- C9 counterexample: `AssignedNTTPoly::assign` does not reject a
9-element coefficient vector: it produces exactly the same `N = 8` witness
writes as for the 8-element prefix (silent truncation by `zip`), while
`AssignedPoly::assign` does assert the length. -/
theorem assigned_ntt_poly_assign_truncation :
    (TESTG ++ [0]).length ≠ NV
    ∧ AssignedNTTPoly.assign (TESTG ++ [0]) = AssignedNTTPoly.assign TESTG
    ∧ (AssignedNTTPoly.assign (TESTG ++ [0])).length = NV
    ∧ AssignedPoly.assign (TESTG ++ [0]) = none := by
  refine ⟨by decide, by decide, by decide, ?_⟩
  unfold AssignedPoly.assign
  decide

theorem ntt_fw_update_length (a : List ℕ) (m : ℕ) :
    (ntt_fw_update a m).length = a.length := by
  unfold ntt_fw_update
  refine foldl_preserve (fun l => l.length = a.length) _ _ ?_ a rfl
  intro i _ a1 h1
  refine foldl_preserve (fun l => l.length = a.length) _ _ ?_ a1 h1
  intro dj _ a2 h2
  simp [List.length_set, h2]

theorem ntt_forward_length (a : List ℕ) :
    (ntt_forward a).length = a.length := by
  unfold ntt_forward
  refine foldl_preserve (fun l => l.length = a.length) _ _ ?_ a rfl
  intro i _ a1 h1
  rw [ntt_fw_update_length, h1]

/-- C9 amended: `AssignedPoly::assign` fails exactly on inputs whose length
differs from `N`; `AssignedNTTPoly::assign` performs no length check — any
input of length `≥ N` is accepted and produces exactly `N` witness writes,
the surplus coefficients being silently dropped. -/
theorem assign_length_handling :
    (∀ coeffs : List ℕ, (AssignedPoly.assign coeffs).isSome ↔ coeffs.length = NV)
    ∧ (∀ coeffs : List ℕ, NV ≤ coeffs.length →
        (AssignedNTTPoly.assign coeffs).length = NV) := by
  constructor
  · intro coeffs
    unfold AssignedPoly.assign
    by_cases h : coeffs.length = NV <;> simp [h]
  · intro coeffs h
    unfold AssignedNTTPoly.assign
    rw [List.length_zip, List.length_range, ntt_forward_length]
    omega

/-- Witness for C9 amended on the 9-element input `TESTG ++ [0]`. -/
theorem assign_length_handling_witness :
    NV ≤ (TESTG ++ [0]).length
    ∧ (AssignedNTTPoly.assign (TESTG ++ [0])).length = NV :=
  ⟨by decide, assign_length_handling.2 _ (by decide)⟩

/-! ### Claim C4 — batched witness generator for ciphertext addition -/

theorem add_gate_output_correct {x y : ℕ} (_hx : x < QV) (_hy : y < QV) :
    add_gate_output ((x + y) / QV) (fieldAdd x y) = (x + y) % QV := by
  unfold add_gate_output fieldAdd fieldMul NEG_ONE QV PGOLD at *
  omega

/-- C4: the batched generator's dependency list splits at its midpoint into
the two ciphertexts' `2N`-wire lists; for each operand pair it derives
`quotient = (x + y).div_euclid Q` and `remainder = (x + y).rem_euclid Q` in
one pass; and the in-circuit constraint value
`Q * (-1) * quotient + eval_added` equals that remainder in the native
field whenever `x, y ∈ [0, Q)`. -/
theorem arithmetic_ops_generator_batched_semantics
    (ct0_targets ct1_targets : List ℕ) (w : ℕ → ℕ)
    (h0 : ct0_targets.length = 2 * NV) (h1 : ct1_targets.length = 2 * NV)
    (hw : ∀ tgt ∈ ArithmeticOpsGenerator.dependencies ct0_targets ct1_targets,
      w tgt < QV) :
    (ArithmeticOpsGenerator.dependencies ct0_targets ct1_targets).splitAt
        ((ArithmeticOpsGenerator.dependencies ct0_targets ct1_targets).length / 2)
      = (ct0_targets, ct1_targets)
    ∧ ArithmeticOpsGenerator.run_once_pairs ct0_targets ct1_targets w
      = (ct0_targets.zip ct1_targets).map
          (fun p => ((w p.1 + w p.2) / QV, (w p.1 + w p.2) % QV))
    ∧ ∀ p ∈ ct0_targets.zip ct1_targets,
        add_gate_output ((w p.1 + w p.2) / QV) (fieldAdd (w p.1) (w p.2))
          = (w p.1 + w p.2) % QV := by
  have hsplit : (ArithmeticOpsGenerator.dependencies ct0_targets ct1_targets).splitAt
      ((ArithmeticOpsGenerator.dependencies ct0_targets ct1_targets).length / 2)
      = (ct0_targets, ct1_targets) := by
    rw [List.splitAt_eq]
    unfold ArithmeticOpsGenerator.dependencies
    have hlen : (ct0_targets ++ ct1_targets).length / 2 = 2 * NV := by
      rw [List.length_append, h0, h1]
      omega
    rw [hlen, List.take_left' h0, List.drop_left' h0]
  refine ⟨hsplit, ?_, ?_⟩
  · simp only [ArithmeticOpsGenerator.run_once_pairs]
    rw [hsplit]
  · have hdeps : ArithmeticOpsGenerator.dependencies ct0_targets ct1_targets
        = ct0_targets ++ ct1_targets := rfl
    rw [hdeps] at hw
    rintro ⟨x, y⟩ hp
    obtain ⟨hp1, hp2⟩ := List.of_mem_zip hp
    have hx : w x < QV := hw x (List.mem_append_left _ hp1)
    have hy : w y < QV := hw y (List.mem_append_right _ hp2)
    exact add_gate_output_correct hx hy

/-- Witness for C4 on concrete wire lists `0, …, 31` and the witness
assignment `w = id` (all values `< Q`). -/
theorem arithmetic_ops_generator_batched_semantics_witness :
    ((List.range 16).length = 2 * NV
      ∧ ((List.range 16).map (· + 16)).length = 2 * NV
      ∧ ∀ tgt ∈ ArithmeticOpsGenerator.dependencies (List.range 16)
          ((List.range 16).map (· + 16)), (fun n => n) tgt < QV)
    ∧ ArithmeticOpsGenerator.run_once_pairs (List.range 16)
        ((List.range 16).map (· + 16)) (fun n => n)
      = ((List.range 16).zip ((List.range 16).map (· + 16))).map
          (fun p => ((p.1 + p.2) / QV, (p.1 + p.2) % QV)) := by
  refine ⟨⟨by decide, by decide, by decide⟩, ?_⟩
  exact (arithmetic_ops_generator_batched_semantics (List.range 16)
    ((List.range 16).map (· + 16)) (fun n => n) (by decide) (by decide)
    (by decide)).2.1

/-! ### Claim C6 — in-circuit NTT round trip

Strategy: the `ℕ`-level witness-generator semantics agrees entrywise (below
index `N`, for reduced states) with the `ZMod Q` mirror; the mirror is
linear in the input state, so the round trip reduces to the eight standard
basis vectors, which are checked by evaluation. -/

theorem butterfly_index_bound {m t i dj : ℕ} (hm : 2 * t * m = NV)
    (hi : i < m) (hdj : dj < t) : 2 * i * t + dj + t < NV := by
  have h1 : 2 * t * (i + 1) = 2 * i * t + t + t := by ring
  have h2 : 2 * t * (i + 1) ≤ 2 * t * m := Nat.mul_le_mul_left _ hi
  omega

theorem fw_butterfly_agree (root : ℕ) {t j : ℕ} (hjt : j + t < NV) :
    ∀ a b, Agree8 a b →
      Agree8 (NTTChip.fw_butterfly root t j a) (fw_butterflyZ ((root : ℕ) : Zq) t j b) := by
  intro a b hab k hk
  have hj : j < NV := by omega
  obtain ⟨haj1, haj2⟩ := hab j hj
  obtain ⟨hat1, hat2⟩ := hab (j + t) hjt
  simp only [NTTChip.fw_butterfly, fw_butterflyZ]
  by_cases h1 : k = j + t
  · subst h1
    simp only [Function.update_same]
    refine ⟨sub_lt_qv, ?_⟩
    rw [cast_sub _ _ mulc_lt_qv, cast_mulc, haj2, hat2]
  · simp only [Function.update_noteq h1]
    by_cases h2 : k = j
    · subst h2
      simp only [Function.update_same]
      refine ⟨add_lt_qv, ?_⟩
      rw [cast_add, cast_mulc, haj2, hat2]
    · simp only [Function.update_noteq h2]
      exact hab k hk

theorem bw_butterfly_agree (root : ℕ) {t j : ℕ} (hjt : j + t < NV) :
    ∀ a b, Agree8 a b →
      Agree8 (NTTChip.bw_butterfly root t j a) (bw_butterflyZ ((root : ℕ) : Zq) t j b) := by
  intro a b hab k hk
  have hj : j < NV := by omega
  obtain ⟨haj1, haj2⟩ := hab j hj
  obtain ⟨hat1, hat2⟩ := hab (j + t) hjt
  simp only [NTTChip.bw_butterfly, bw_butterflyZ]
  by_cases h1 : k = j + t
  · subst h1
    simp only [Function.update_same]
    refine ⟨mulc_lt_qv, ?_⟩
    rw [cast_mulc, cast_sub _ _ hat1, haj2, hat2]
  · simp only [Function.update_noteq h1]
    by_cases h2 : k = j
    · subst h2
      simp only [Function.update_same]
      refine ⟨add_lt_qv, ?_⟩
      rw [cast_add, haj2, hat2]
    · simp only [Function.update_noteq h2]
      exact hab k hk

theorem ntt_fw_update_agree {m : ℕ} (hm : 2 * (NV / (2 * m)) * m = NV) :
    ∀ a b, Agree8 a b → Agree8 (NTTChip.ntt_fw_update a m) (ntt_fw_updateZ b m) := by
  intro a b hab
  simp only [NTTChip.ntt_fw_update, ntt_fw_updateZ]
  refine foldl_rel Agree8 _ _ (List.range m) ?_ a b hab
  intro i hi a b hab
  refine foldl_rel Agree8 _ _ (List.range (NV / (2 * m))) ?_ a b hab
  intro dj hdj a b hab
  exact fw_butterfly_agree _
    (butterfly_index_bound hm (List.mem_range.mp hi) (List.mem_range.mp hdj)) a b hab

theorem ntt_bw_update_agree {m : ℕ} (hm : 2 * (NV / (2 * m)) * m = NV) :
    ∀ a b, Agree8 a b → Agree8 (NTTChip.ntt_bw_update a m) (ntt_bw_updateZ b m) := by
  intro a b hab
  simp only [NTTChip.ntt_bw_update, ntt_bw_updateZ]
  refine foldl_rel Agree8 _ _ (List.range m) ?_ a b hab
  intro i hi a b hab
  refine foldl_rel Agree8 _ _ (List.range (NV / (2 * m))) ?_ a b hab
  intro dj hdj a b hab
  exact bw_butterfly_agree _
    (butterfly_index_bound hm (List.mem_range.mp hi) (List.mem_range.mp hdj)) a b hab

theorem ntt_forward_agree :
    ∀ a b, Agree8 a b → Agree8 (NTTChip.ntt_forward a) (ntt_forwardZ b) := by
  intro a b hab
  simp only [NTTChip.ntt_forward, ntt_forwardZ]
  refine foldl_rel Agree8 _ _ (List.range LOGN) ?_ a b hab
  intro i hi a b hab
  have hi3 : i < 3 := by
    have := List.mem_range.mp hi
    simpa [LOGN] using this
  refine ntt_fw_update_agree ?_ a b hab
  interval_cases i <;> decide

theorem ntt_backward_agree :
    ∀ a b, Agree8 a b → Agree8 (NTTChip.ntt_backward a) (ntt_backwardZ b) := by
  intro a b hab
  simp only [NTTChip.ntt_backward, ntt_backwardZ]
  have hcur : Agree8
      (((List.range LOGN).reverse).foldl (fun current i => NTTChip.ntt_bw_update current (2 ^ i)) a)
      (((List.range LOGN).reverse).foldl (fun current i => ntt_bw_updateZ current (2 ^ i)) b) := by
    refine foldl_rel Agree8 _ _ ((List.range LOGN).reverse) ?_ a b hab
    intro i hi a b hab
    have hi3 : i < 3 := by
      have := List.mem_range.mp (List.mem_reverse.mp hi)
      simpa [LOGN] using this
    refine ntt_bw_update_agree ?_ a b hab
    interval_cases i <;> decide
  intro k hk
  obtain ⟨h1, h2⟩ := hcur k hk
  exact ⟨mulc_lt_qv, by rw [cast_mulc, h2]⟩

/-! Linearity of the `ZMod` mirror. -/

theorem fw_butterflyZ_add (root : Zq) (t j : ℕ) (a b : ℕ → Zq) :
    fw_butterflyZ root t j (a + b) = fw_butterflyZ root t j a + fw_butterflyZ root t j b := by
  funext k
  simp only [fw_butterflyZ, Pi.add_apply]
  by_cases h1 : k = j + t
  · subst h1
    simp only [Function.update_same, Pi.add_apply]
    ring
  · simp only [Function.update_noteq h1]
    by_cases h2 : k = j
    · subst h2
      simp only [Function.update_same, Pi.add_apply]
      ring
    · simp only [Function.update_noteq h2, Pi.add_apply]

theorem fw_butterflyZ_smul (root : Zq) (t j : ℕ) (c : Zq) (a : ℕ → Zq) :
    fw_butterflyZ root t j (c • a) = c • fw_butterflyZ root t j a := by
  funext k
  simp only [fw_butterflyZ, Pi.smul_apply, smul_eq_mul]
  by_cases h1 : k = j + t
  · subst h1
    simp only [Function.update_same, Pi.smul_apply, smul_eq_mul]
    ring
  · simp only [Function.update_noteq h1]
    by_cases h2 : k = j
    · subst h2
      simp only [Function.update_same, Pi.smul_apply, smul_eq_mul]
      ring
    · simp only [Function.update_noteq h2, Pi.smul_apply, smul_eq_mul]

theorem bw_butterflyZ_add (root : Zq) (t j : ℕ) (a b : ℕ → Zq) :
    bw_butterflyZ root t j (a + b) = bw_butterflyZ root t j a + bw_butterflyZ root t j b := by
  funext k
  simp only [bw_butterflyZ, Pi.add_apply]
  by_cases h1 : k = j + t
  · subst h1
    simp only [Function.update_same, Pi.add_apply]
    ring
  · simp only [Function.update_noteq h1]
    by_cases h2 : k = j
    · subst h2
      simp only [Function.update_same, Pi.add_apply]
      ring
    · simp only [Function.update_noteq h2, Pi.add_apply]

theorem bw_butterflyZ_smul (root : Zq) (t j : ℕ) (c : Zq) (a : ℕ → Zq) :
    bw_butterflyZ root t j (c • a) = c • bw_butterflyZ root t j a := by
  funext k
  simp only [bw_butterflyZ, Pi.smul_apply, smul_eq_mul]
  by_cases h1 : k = j + t
  · subst h1
    simp only [Function.update_same, Pi.smul_apply, smul_eq_mul]
    ring
  · simp only [Function.update_noteq h1]
    by_cases h2 : k = j
    · subst h2
      simp only [Function.update_same, Pi.smul_apply, smul_eq_mul]
      ring
    · simp only [Function.update_noteq h2, Pi.smul_apply, smul_eq_mul]

theorem ntt_fw_updateZ_add (m : ℕ) (a b : ℕ → Zq) :
    ntt_fw_updateZ (a + b) m = ntt_fw_updateZ a m + ntt_fw_updateZ b m := by
  simp only [ntt_fw_updateZ]
  refine foldl_add_hom _ (List.range m) ?_ a b
  intro i _ a b
  refine foldl_add_hom _ (List.range (NV / (2 * m))) ?_ a b
  intro dj _ a b
  exact fw_butterflyZ_add _ _ _ a b

theorem ntt_fw_updateZ_smul (m : ℕ) (c : Zq) (a : ℕ → Zq) :
    ntt_fw_updateZ (c • a) m = c • ntt_fw_updateZ a m := by
  simp only [ntt_fw_updateZ]
  refine foldl_smul_hom _ (List.range m) ?_ c a
  intro i _ c a
  refine foldl_smul_hom _ (List.range (NV / (2 * m))) ?_ c a
  intro dj _ c a
  exact fw_butterflyZ_smul _ _ _ c a

theorem ntt_bw_updateZ_add (m : ℕ) (a b : ℕ → Zq) :
    ntt_bw_updateZ (a + b) m = ntt_bw_updateZ a m + ntt_bw_updateZ b m := by
  simp only [ntt_bw_updateZ]
  refine foldl_add_hom _ (List.range m) ?_ a b
  intro i _ a b
  refine foldl_add_hom _ (List.range (NV / (2 * m))) ?_ a b
  intro dj _ a b
  exact bw_butterflyZ_add _ _ _ a b

theorem ntt_bw_updateZ_smul (m : ℕ) (c : Zq) (a : ℕ → Zq) :
    ntt_bw_updateZ (c • a) m = c • ntt_bw_updateZ a m := by
  simp only [ntt_bw_updateZ]
  refine foldl_smul_hom _ (List.range m) ?_ c a
  intro i _ c a
  refine foldl_smul_hom _ (List.range (NV / (2 * m))) ?_ c a
  intro dj _ c a
  exact bw_butterflyZ_smul _ _ _ c a

theorem ntt_forwardZ_add (a b : ℕ → Zq) :
    ntt_forwardZ (a + b) = ntt_forwardZ a + ntt_forwardZ b := by
  simp only [ntt_forwardZ]
  refine foldl_add_hom _ (List.range LOGN) ?_ a b
  intro i _ a b
  exact ntt_fw_updateZ_add _ a b

theorem ntt_forwardZ_smul (c : Zq) (a : ℕ → Zq) :
    ntt_forwardZ (c • a) = c • ntt_forwardZ a := by
  simp only [ntt_forwardZ]
  refine foldl_smul_hom _ (List.range LOGN) ?_ c a
  intro i _ c a
  exact ntt_fw_updateZ_smul _ c a

theorem ntt_backwardZ_add (a b : ℕ → Zq) :
    ntt_backwardZ (a + b) = ntt_backwardZ a + ntt_backwardZ b := by
  simp only [ntt_backwardZ]
  have h : ((List.range LOGN).reverse).foldl (fun current i => ntt_bw_updateZ current (2 ^ i)) (a + b)
      = ((List.range LOGN).reverse).foldl (fun current i => ntt_bw_updateZ current (2 ^ i)) a
        + ((List.range LOGN).reverse).foldl (fun current i => ntt_bw_updateZ current (2 ^ i)) b := by
    refine foldl_add_hom _ ((List.range LOGN).reverse) ?_ a b
    intro i _ a b
    exact ntt_bw_updateZ_add _ a b
  rw [h]
  funext k
  simp only [Pi.add_apply]
  ring

theorem ntt_backwardZ_smul (c : Zq) (a : ℕ → Zq) :
    ntt_backwardZ (c • a) = c • ntt_backwardZ a := by
  simp only [ntt_backwardZ]
  have h : ((List.range LOGN).reverse).foldl (fun current i => ntt_bw_updateZ current (2 ^ i)) (c • a)
      = c • ((List.range LOGN).reverse).foldl (fun current i => ntt_bw_updateZ current (2 ^ i)) a := by
    refine foldl_smul_hom _ ((List.range LOGN).reverse) ?_ c a
    intro i _ c a
    exact ntt_bw_updateZ_smul _ c a
  rw [h]
  funext k
  simp only [Pi.smul_apply, smul_eq_mul]
  ring

theorem ntt_roundtripZ_add (a b : ℕ → Zq) :
    ntt_roundtripZ (a + b) = ntt_roundtripZ a + ntt_roundtripZ b := by
  unfold ntt_roundtripZ
  rw [ntt_forwardZ_add, ntt_backwardZ_add]

theorem ntt_roundtripZ_smul (c : Zq) (a : ℕ → Zq) :
    ntt_roundtripZ (c • a) = c • ntt_roundtripZ a := by
  unfold ntt_roundtripZ
  rw [ntt_forwardZ_smul, ntt_backwardZ_smul]

theorem ntt_roundtripZ_zero : ntt_roundtripZ 0 = 0 := by
  have h : ntt_roundtripZ ((0 : Zq) • (0 : ℕ → Zq)) = (0 : Zq) • ntt_roundtripZ 0 :=
    ntt_roundtripZ_smul 0 0
  simpa using h

theorem ntt_roundtripZ_sum (s : Finset ℕ) (g : ℕ → ℕ → Zq) :
    ntt_roundtripZ (∑ i ∈ s, g i) = ∑ i ∈ s, ntt_roundtripZ (g i) := by
  classical
  induction s using Finset.induction with
  | empty => simpa using ntt_roundtripZ_zero
  | insert hx ih =>
    rw [Finset.sum_insert hx, ntt_roundtripZ_add, ih, Finset.sum_insert hx]

/-- The round trip fixes the eight basis vectors (checked by evaluation). -/
theorem ntt_roundtripZ_basis :
    ∀ i < NV, ∀ k < NV, ntt_roundtripZ (basisZ i) k = basisZ i k := by
  decide

/-- C6: applying `NTTChip::ntt_backward` to the output of
`NTTChip::ntt_forward` (both interpreted by the witness-generator
semantics of their gates) returns the input, for every state whose first
`N` values lie in `[0, Q)`. -/
theorem ntt_chip_roundtrip (a : ℕ → ℕ) (ha : ∀ k < NV, a k < QV) :
    ∀ k < NV, NTTChip.ntt_backward (NTTChip.ntt_forward a) k = a k := by
  classical
  set b : ℕ → Zq := fun k => if k < NV then ((a k : ℕ) : Zq) else 0 with hb
  have hab : Agree8 a b := by
    intro k hk
    exact ⟨ha k hk, by simp [hb, hk]⟩
  have hagree : Agree8 (NTTChip.ntt_backward (NTTChip.ntt_forward a)) (ntt_roundtripZ b) :=
    ntt_backward_agree _ _ (ntt_forward_agree _ _ hab)
  have hdecomp : b = ∑ i ∈ Finset.range NV, b i • basisZ i := by
    funext k
    rw [Finset.sum_apply]
    simp only [Pi.smul_apply, smul_eq_mul, basisZ, mul_ite, mul_one, mul_zero]
    by_cases hk : k < NV
    · rw [Finset.sum_eq_single k]
      · simp [hb, hk]
      · intro i _ hik
        exact if_neg (fun h => hik h.symm)
      · intro h
        exact absurd (Finset.mem_range.mpr hk) h
    · rw [Finset.sum_eq_zero]
      · simp [hb, hk]
      · intro i hi
        have : k ≠ i := by
          intro h
          exact hk (h ▸ Finset.mem_range.mp hi)
        exact if_neg this
  have hfix : ∀ k < NV, ntt_roundtripZ b k = b k := by
    intro k hk
    have h1 : ntt_roundtripZ b = ∑ i ∈ Finset.range NV, b i • ntt_roundtripZ (basisZ i) := by
      conv_lhs => rw [hdecomp, ntt_roundtripZ_sum]
      refine Finset.sum_congr rfl ?_
      intro i _
      exact ntt_roundtripZ_smul _ _
    rw [h1, Finset.sum_apply]
    conv_rhs => rw [hdecomp]
    rw [Finset.sum_apply]
    refine Finset.sum_congr rfl ?_
    intro i hi
    simp only [Pi.smul_apply, smul_eq_mul]
    rw [ntt_roundtripZ_basis i (Finset.mem_range.mp hi) k hk]
  intro k hk
  obtain ⟨hlt, hcast⟩ := hagree k hk
  have heq : ((NTTChip.ntt_backward (NTTChip.ntt_forward a) k : ℕ) : Zq) = ((a k : ℕ) : Zq) := by
    rw [hcast, hfix k hk]
    simp [hb, hk]
  have hval := congrArg ZMod.val heq
  rwa [ZMod.val_cast_of_lt hlt, ZMod.val_cast_of_lt (ha k hk)] at hval

/-- Witness for C6 on the concrete vector `TESTG` (entries `< Q`). -/
theorem ntt_chip_roundtrip_witness :
    (∀ k < NV, (fun k => TESTG.getD k 0) k < QV)
    ∧ ∀ k < NV, NTTChip.ntt_backward (NTTChip.ntt_forward (fun k => TESTG.getD k 0)) k
        = (fun k => TESTG.getD k 0) k :=
  ⟨by decide, ntt_chip_roundtrip (fun k => TESTG.getD k 0) (by decide)⟩

/-! ### Claim C5 — `rounded_div` rounds to nearest, ties away from zero -/

theorem int_tdiv_natCast (m n : ℕ) : (m : ℤ).tdiv (n : ℤ) = ((m / n : ℕ) : ℤ) := rfl

theorem abs_sub_natCast_eq_dist (n m : ℕ) :
    |(n : ℤ) - (m : ℤ)| = (Nat.dist n m : ℤ) := by
  rcases le_total n m with h | h
  · rw [Nat.dist_eq_sub_of_le h, abs_of_nonpos (sub_nonpos.mpr (Nat.cast_le.mpr h)),
      Nat.cast_sub h]
    ring
  · rw [Nat.dist_comm, Nat.dist_eq_sub_of_le h,
      abs_of_nonneg (sub_nonneg.mpr (Nat.cast_le.mpr h)), Nat.cast_sub h]

theorem nat_round_core (n d : ℕ) (hd : 0 < d) :
    2 * Nat.dist n (d * ((n + d / 2) / d)) ≤ d
    ∧ (2 * Nat.dist n (d * ((n + d / 2) / d)) = d → n ≤ d * ((n + d / 2) / d)) := by
  obtain ⟨k, r, hr, rfl⟩ : ∃ k r, r < d ∧ n = d * k + r :=
    ⟨n / d, n % d, Nat.mod_lt _ hd, (Nat.div_add_mod n d).symm⟩
  have hq : (d * k + r + d / 2) / d = k + (r + d / 2) / d := by
    rw [Nat.add_assoc, Nat.mul_add_div hd]
  rw [hq, Nat.mul_add]
  by_cases hcase : r + d / 2 < d
  · rw [Nat.div_eq_of_lt hcase]
    simp only [Nat.mul_zero, Nat.add_zero]
    generalize d * k = M
    simp only [Nat.dist]
    omega
  · have h1 : (r + d / 2) / d = 1 := Nat.div_eq_of_lt_le (by omega) (by omega)
    rw [h1, Nat.mul_one]
    generalize d * k = M
    simp only [Nat.dist]
    omega

theorem rounded_div_nonneg_pos (n d : ℕ) :
    rounded_div (n : ℤ) (d : ℤ) = (((n + d / 2) / d : ℕ) : ℤ) := by
  unfold rounded_div
  rw [if_pos (iff_of_false (Int.not_lt.mpr (Int.natCast_nonneg n))
    (Int.not_lt.mpr (Int.natCast_nonneg d)))]
  rw [show (d : ℤ).tdiv 2 = ((d / 2 : ℕ) : ℤ) from rfl,
    show (n : ℤ) + ((d / 2 : ℕ) : ℤ) = ((n + d / 2 : ℕ) : ℤ) by push_cast; ring]
  exact int_tdiv_natCast _ _

theorem rounded_div_zero_left (b : ℤ) : rounded_div 0 b = 0 := by
  by_cases hb : b = 0
  · subst hb
    unfold rounded_div
    split_ifs <;> simp [Int.tdiv_zero]
  · have hsmall : ∀ x : ℤ, x.natAbs < b.natAbs → x.tdiv b = 0 := by
      intro x hx
      refine Int.natAbs_eq_zero.mp ?_
      rw [Int.natAbs_tdiv]
      exact Nat.div_eq_of_lt hx
    have hb1 : 0 < b.natAbs := Int.natAbs_pos.mpr hb
    have hhalf : (b.tdiv 2).natAbs < b.natAbs := by
      rw [Int.natAbs_tdiv]
      exact Nat.div_lt_self hb1 (by norm_num)
    unfold rounded_div
    split_ifs
    · rw [zero_add]
      exact hsmall _ hhalf
    · rw [zero_sub]
      refine hsmall _ ?_
      rwa [Int.natAbs_neg]

theorem rounded_div_neg_left (a b : ℤ) : rounded_div (-a) b = - rounded_div a b := by
  by_cases hb0 : b = 0
  · subst hb0
    unfold rounded_div
    split_ifs <;> simp [Int.tdiv_zero]
  rcases lt_trichotomy a 0 with ha | ha | ha
  · have hna : ¬ (-a < 0) := by omega
    rcases lt_or_gt_of_ne hb0 with hb | hb
    · unfold rounded_div
      rw [if_neg (fun hiff => hna (hiff.mpr hb)), if_pos (iff_of_true ha hb),
        show -a - b.tdiv 2 = -(a + b.tdiv 2) by ring, Int.neg_tdiv]
    · unfold rounded_div
      rw [if_pos (iff_of_false hna (Int.not_lt.mpr hb.le)),
        if_neg (fun hiff => (Int.not_lt.mpr hb.le) (hiff.mp ha)),
        show -a + b.tdiv 2 = -(a - b.tdiv 2) by ring, Int.neg_tdiv]
  · subst ha
    rw [neg_zero, rounded_div_zero_left, neg_zero]
  · have hna : ¬ (a < 0) := by omega
    have hneg : -a < 0 := by omega
    rcases lt_or_gt_of_ne hb0 with hb | hb
    · unfold rounded_div
      rw [if_pos (iff_of_true hneg hb), if_neg (fun hiff => hna (hiff.mpr hb)),
        show -a + b.tdiv 2 = -(a - b.tdiv 2) by ring, Int.neg_tdiv]
    · unfold rounded_div
      rw [if_neg (fun hiff => (Int.not_lt.mpr hb.le) (hiff.mp hneg)),
        if_pos (iff_of_false hna (Int.not_lt.mpr hb.le)),
        show -a - b.tdiv 2 = -(a + b.tdiv 2) by ring, Int.neg_tdiv]

theorem rounded_div_neg_right (a b : ℤ) : rounded_div a (-b) = - rounded_div a b := by
  by_cases hb0 : b = 0
  · subst hb0
    rw [neg_zero]
    unfold rounded_div
    split_ifs <;> simp [Int.tdiv_zero]
  by_cases ha : a < 0
  · rcases lt_or_gt_of_ne hb0 with hb | hb
    · have hnb : ¬ (-b < 0) := by omega
      unfold rounded_div
      rw [if_neg (fun hiff => hnb (hiff.mp ha)), if_pos (iff_of_true ha hb),
        Int.neg_tdiv, show a - -(b.tdiv 2) = a + b.tdiv 2 by ring, Int.tdiv_neg]
    · have hnb : -b < 0 := by omega
      unfold rounded_div
      rw [if_pos (iff_of_true ha hnb), if_neg (fun hiff => (Int.not_lt.mpr hb.le) (hiff.mp ha)),
        Int.neg_tdiv, show a + -(b.tdiv 2) = a - b.tdiv 2 by ring, Int.tdiv_neg]
  · rcases lt_or_gt_of_ne hb0 with hb | hb
    · have hnb : ¬ (-b < 0) := by omega
      unfold rounded_div
      rw [if_pos (iff_of_false ha hnb), if_neg (fun hiff => ha (hiff.mpr hb)),
        Int.neg_tdiv, show a + -(b.tdiv 2) = a - b.tdiv 2 by ring, Int.tdiv_neg]
    · have hnb : -b < 0 := by omega
      unfold rounded_div
      rw [if_neg (fun hiff => ha (hiff.mpr hnb)),
        if_pos (iff_of_false ha (Int.not_lt.mpr hb.le)),
        Int.neg_tdiv, show a - -(b.tdiv 2) = a + b.tdiv 2 by ring, Int.tdiv_neg]

theorem rounded_div_core_nat (n d : ℕ) (hd : 0 < d) :
    2 * |(n : ℤ) - (d : ℤ) * rounded_div (n : ℤ) (d : ℤ)| ≤ (d : ℤ)
    ∧ (2 * |(n : ℤ) - (d : ℤ) * rounded_div (n : ℤ) (d : ℤ)| = (d : ℤ) →
        (n : ℤ) ≤ (d : ℤ) * rounded_div (n : ℤ) (d : ℤ)) := by
  rw [rounded_div_nonneg_pos n d,
    show (d : ℤ) * (((n + d / 2) / d : ℕ) : ℤ) = ((d * ((n + d / 2) / d) : ℕ) : ℤ) by
      push_cast; ring,
    abs_sub_natCast_eq_dist]
  obtain ⟨h1, h2⟩ := nat_round_core n d hd
  exact ⟨by exact_mod_cast h1, fun h => by exact_mod_cast h2 (by exact_mod_cast h)⟩

theorem rounded_div_core_pos (a d : ℤ) (hd : 0 < d) :
    2 * |a - d * rounded_div a d| ≤ d
    ∧ (2 * |a - d * rounded_div a d| = d → |a| ≤ |d * rounded_div a d|) := by
  obtain ⟨m, rfl⟩ := Int.eq_ofNat_of_zero_le hd.le
  have hm : 0 < m := by exact_mod_cast hd
  rcases le_or_lt 0 a with ha | ha
  · obtain ⟨n, rfl⟩ := Int.eq_ofNat_of_zero_le ha
    obtain ⟨h1, h2⟩ := rounded_div_core_nat n m hm
    refine ⟨h1, fun htie => ?_⟩
    have h3 := h2 htie
    calc |(n : ℤ)| = (n : ℤ) := abs_of_nonneg (Int.natCast_nonneg n)
      _ ≤ (m : ℤ) * rounded_div (n : ℤ) (m : ℤ) := h3
      _ ≤ |(m : ℤ) * rounded_div (n : ℤ) (m : ℤ)| := le_abs_self _
  · obtain ⟨n, hn⟩ := Int.eq_ofNat_of_zero_le (neg_nonneg.mpr ha.le)
    have ha' : a = -(n : ℤ) := by omega
    subst ha'
    rw [rounded_div_neg_left]
    obtain ⟨h1, h2⟩ := rounded_div_core_nat n m hm
    have hrw : -(n : ℤ) - (m : ℤ) * -(rounded_div (n : ℤ) (m : ℤ))
        = -((n : ℤ) - (m : ℤ) * rounded_div (n : ℤ) (m : ℤ)) := by ring
    refine ⟨by rw [hrw, abs_neg]; exact h1, fun htie => ?_⟩
    rw [hrw, abs_neg] at htie
    have h3 := h2 htie
    calc |(-(n : ℤ))| = (n : ℤ) := by rw [abs_neg, abs_of_nonneg (Int.natCast_nonneg n)]
      _ ≤ (m : ℤ) * rounded_div (n : ℤ) (m : ℤ) := h3
      _ ≤ |(m : ℤ) * rounded_div (n : ℤ) (m : ℤ)| := le_abs_self _
      _ = |(m : ℤ) * -(rounded_div (n : ℤ) (m : ℤ))| := by rw [mul_neg, abs_neg]

/-- C5: for every dividend and nonzero divisor, `rounded_div` returns the
nearest integer to the exact quotient — the remainder `a - b * r` satisfies
`2|a - b*r| ≤ |b|`, with a tie (`2|a - b*r| = |b|`) resolved away from zero
(`|a| ≤ |b*r|`) — and rounding is symmetric for negated dividends:
`rounded_div (-a) d = -(rounded_div a d)`. -/
theorem rounded_div_nearest_ties_away :
    (∀ a b : ℤ, b ≠ 0 →
      2 * |a - b * rounded_div a b| ≤ |b|
      ∧ (2 * |a - b * rounded_div a b| = |b| → |a| ≤ |b * rounded_div a b|))
    ∧ ∀ a d : ℤ, 0 ≤ a → 0 < d → rounded_div (-a) d = - rounded_div a d := by
  constructor
  · intro a b hb
    rcases lt_or_gt_of_ne hb with hbneg | hbpos
    · have hb' : (0 : ℤ) < -b := by omega
      have hneg := rounded_div_neg_right a (-b)
      rw [neg_neg] at hneg
      have hprod : b * rounded_div a b = (-b) * rounded_div a (-b) := by
        rw [hneg]
        ring
      rw [hprod, show |b| = |(-b)| from (abs_neg b).symm,
        show |(-b)| = -b from abs_of_pos hb']
      exact rounded_div_core_pos a (-b) hb'
    · rw [show |b| = b from abs_of_pos hbpos]
      exact rounded_div_core_pos a b hbpos
  · intro a d _ _
    exact rounded_div_neg_left a d

/-- Witness for C5 at `a = 7, b = 2`: `rounded_div 7 2 = 4` (3.5 rounds away
from zero) and `rounded_div (-7) 2 = -4`. -/
theorem rounded_div_nearest_ties_away_witness :
    ((2 : ℤ) ≠ 0
      ∧ 2 * |(7 : ℤ) - 2 * rounded_div 7 2| ≤ |(2 : ℤ)|)
    ∧ (0 ≤ (7 : ℤ) ∧ 0 < (2 : ℤ) ∧ rounded_div (-7) 2 = - rounded_div 7 2) :=
  ⟨⟨by norm_num, (rounded_div_nearest_ties_away.1 7 2 (by norm_num)).1⟩,
    ⟨by norm_num, by norm_num,
      rounded_div_nearest_ties_away.2 7 2 (by norm_num) (by norm_num)⟩⟩

end Lattices
